import Mathlib

/-!
Shallow embedding of `bioconda_utils/lint/__init__.py` (the recipe lint executor).

The embedding follows the Python source closely:
* `Severity`, `LintMessage` model the `Severity` IntEnum and the `LintMessage`
  NamedTuple (messages identify the issuing check by its name, as `str(check)` does).
* `CheckDef` models a registered `LintCheck` subclass: static metadata (name,
  severity, requires, docstring) plus an opaque behavior standing for the three
  hooks invoked by `LintCheck.run`; the behavior returns the list of
  `self.message(...)` calls the hooks perform, or an error when a hook raises.
* `Recipe` / `RecipeWorld` model the external document collaborator
  (`bioconda_utils.recipe`): field lookup for `extra/skip-lints`,
  `get_raw_range`, `Recipe.from_file` and the bare `Recipe(name, folder)` constructor.
* `Digraph`, `topoSortRev`, `descendants`, `ancestors` model the networkx
  calls made by `Linter.__init__` and `Linter.lint_one`
  (`nx.topological_sort(dag, reverse=True)`, `nx.descendants`, `nx.ancestors`).
* `Linter.init`, `Linter.lintOne`, `Linter.lint`, `Linter.load_skips`
  (as `findTokens`) translate the `Linter` class line by line.  `runChecks`
  additionally reports the list of invoked check names, which only instruments
  observability and does not influence any produced value.
-/

namespace BiocondaLint

/-- Severities for lint checks (`Severity` IntEnum: INFO=10, WARNING=20, ERROR=30). -/
inductive Severity where
  | INFO
  | WARNING
  | ERROR
deriving DecidableEq, Repr

/-- The numeric value of the IntEnum member. -/
def Severity.val : Severity → Nat
  | .INFO => 10
  | .WARNING => 20
  | .ERROR => 30

/--
The external `Recipe` document collaborator, reduced to the fields the linter
core reads: `path` (used as default message file name), the value of
`recipe.get('extra/skip-lints', [])` (`some l` when that value is a list `l`;
`none` when the field holds a non-list value), and the section table backing
`recipe.get_raw_range` (start line, start col, end line, end col).
-/
structure Recipe where
  path : String
  extraSkipLints : Option (List String)
  ranges : List (String × (Int × Int × Int × Int))
deriving DecidableEq, Repr

/-- One `self.message(section=..., fname=..., line=...)` call made by a check's hooks. -/
structure MsgRequest where
  sec : Option String := none
  fname : Option String := none
  line : Option Int := none
deriving DecidableEq, Repr

/-- The `LintMessage` NamedTuple.  `check` holds the issuing check's name
(`str(check)` of the class, or the node name string in the executor loop). -/
structure LintMessage where
  recipe : Recipe
  check : String
  severity : Severity := .ERROR
  title : String := ""
  body : String := ""
  start_line : Int := 0
  end_line : Int := 0
  fname : String := "meta.yaml"
deriving DecidableEq, Repr

instance instDecEqExcept {ε α : Type} [DecidableEq ε] [DecidableEq α] :
    DecidableEq (Except ε α) := fun a b =>
  match a, b with
  | Except.ok x, Except.ok y =>
    if h : x = y then isTrue (by rw [h])
    else isFalse (fun hh => h (Except.ok.inj hh))
  | Except.error x, Except.error y =>
    if h : x = y then isTrue (by rw [h])
    else isFalse (fun hh => h (Except.error.inj hh))
  | Except.ok _, Except.error _ => isFalse (fun hh => Except.noConfusion hh)
  | Except.error _, Except.ok _ => isFalse (fun hh => Except.noConfusion hh)

/-- `LintMessage.get_level`: the github level string derived from the severity. -/
def LintMessage.get_level (m : LintMessage) : String :=
  if m.severity.val < Severity.WARNING.val then "notice"
  else if m.severity.val < Severity.ERROR.val then "warning"
  else "failure"

/--
A registered check (`LintCheck` subclass): unique name, declared severity
(default ERROR), names of required checks (`str` of the classes in `requires`),
the docstring as returned by `inspect.getdoc`, and the opaque hook behavior.
The behavior maps a recipe to the `self.message` calls performed by
`check_recipe` / `check_source` / `check_deps`, or to an error when a hook raises.
-/
structure CheckDef where
  name : String
  severity : Severity := .ERROR
  requires : List String := []
  doc : String := ""
  behavior : Recipe → Except Unit (List MsgRequest) := fun _ => Except.ok []

/-! ### String helpers modelling the Python string operations used by `make_message` -/

/-- Python `\s` on the ASCII range: space, tab, newline, carriage return,
vertical tab, form feed. -/
def isPySpace (c : Char) : Bool :=
  c = ' ' || c = '\t' || c = '\n' || c = '\r' || c = '\x0b' || c = '\x0c'

/-- Python `\w` on the ASCII range: letters, digits and underscore. -/
def isWordChar (c : Char) : Bool :=
  c.isAlphanum || c = '_'

/-- Replace every non-overlapping occurrence of `pat` (left to right), as
Python `str.replace` does for a non-empty pattern.  Fuelled by the input length. -/
def replaceAllAux (pat repl : List Char) : Nat → List Char → List Char
  | _, [] => []
  | 0, s => s
  | Nat.succ fuel, c :: rest =>
    if pat.isPrefixOf (c :: rest) then
      repl ++ replaceAllAux pat repl fuel (List.drop pat.length (c :: rest))
    else
      c :: replaceAllAux pat repl fuel rest

/-- Python `s.replace(pat, repl)` for non-empty `pat`. -/
def pyReplace (s pat repl : String) : String :=
  String.mk (replaceAllAux pat.data repl.data s.data.length s.data)

/-- Python `s.partition('\n')` reduced to the pair (before, after):
split at the first newline; when there is none the second component is empty. -/
def partitionNL : List Char → List Char × List Char
  | [] => ([], [])
  | c :: rest =>
    if c = '\n' then ([], rest)
    else
      let pr := partitionNL rest
      (c :: pr.1, pr.2)

/-- Python `s.strip()` on the ASCII whitespace range. -/
def pyStrip (s : String) : String :=
  String.mk (((s.data.dropWhile isPySpace).reverse.dropWhile isPySpace).reverse)

/--
`LintCheck.make_message`: normalize the docstring (`::` to `:`, double to
single backquote), split title from body at the first newline, resolve the
location from the section (via `get_raw_range`, falling back to `1,1,1,1` on
`KeyError`, and pulling `end_line` back by one when the end column is 0) or
from the explicit line (`line or 0`), default the file name to `recipe.path`.
-/
def makeMessage (cls : CheckDef) (recipe : Recipe) (sec : Option String)
    (fname : Option String) (line : Option Int) : LintMessage :=
  let doc := pyReplace (pyReplace cls.doc "::" ":") "``" "`"
  let tb := partitionNL doc.data
  let lines : Int × Int :=
    match sec with
    | some sp =>
      let r := (List.lookup sp recipe.ranges).getD (1, 1, 1, 1)
      let el := if r.2.2.2 = 0 then r.2.2.1 - 1 else r.2.2.1
      (r.1, el)
    | none =>
      let l := line.getD 0
      (l, l)
  let fn : String :=
    match fname with
    | some f => if f = "" then recipe.path else f
    | none => recipe.path
  { recipe := recipe
    check := cls.name
    severity := cls.severity
    title := pyStrip (String.mk tb.1)
    body := String.mk tb.2
    start_line := lines.1
    end_line := lines.2
    fname := fn }

/-! ### The checks defined in `lint/__init__.py` itself (sentinel checks).
Their `doc` fields hold the docstrings as `inspect.getdoc` returns them
(dedented, leading/trailing whitespace stripped); their hooks are the inherited
no-op `LintCheck` hooks. -/

/-- `linter_failure` sentinel check. -/
def linter_failure : CheckDef :=
  { name := "linter_failure"
    doc := "An unexpected exception was raised during linting\n\nPlease file an issue at the bioconda-utils repo" }

/-- `duplicate_key_in_meta_yaml` sentinel check. -/
def duplicate_key_in_meta_yaml : CheckDef :=
  { name := "duplicate_key_in_meta_yaml"
    doc := "The recipe meta.yaml contains a duplicate key\n\nThis is invalid YAML, as it's unclear what the structure should\nbecome. Please merge the two offending sections" }

/-- `missing_version_or_name` sentinel check. -/
def missing_version_or_name : CheckDef :=
  { name := "missing_version_or_name"
    doc := "The recipe is missing name and/or version\n\nPlease make sure the recipe has at least::\n\n  package:\n    name: package_name\n    version: 0.12.34" }

/-- `empty_meta_yaml` sentinel check. -/
def empty_meta_yaml : CheckDef :=
  { name := "empty_meta_yaml"
    doc := "The recipe has an empty meta.yaml!?\n\nPlease check if you forgot to commit its contents." }

/-- `missing_build` sentinel check. -/
def missing_build : CheckDef :=
  { name := "missing_build"
    doc := "The recipe is missing a build section.\n\nPlease add::\n\n  build:\n    number: 0" }

/-- `unknown_selector` sentinel check. -/
def unknown_selector : CheckDef :=
  { name := "unknown_selector"
    doc := "The recipe failed to parse due to selector lines\n\nPlease request help from @bioconda/core." }

/-- `missing_meta_yaml` sentinel check. -/
def missing_meta_yaml : CheckDef :=
  { name := "missing_meta_yaml"
    doc := "The recipe is missing a meta.yaml file\n\nMost commonly, this is because the file was accidentally\nnamed ``meta.yml``. If so, rename it to ``meta.yaml``." }

/-- `conda_render_failure` sentinel check. -/
def conda_render_failure : CheckDef :=
  { name := "conda_render_failure"
    doc := "The recipe was not understood by conda-build\n\nPlease request help from @bioconda/core." }

/-- `jinja_render_failure` sentinel check (literal braces written escaped). -/
def jinja_render_failure : CheckDef :=
  { name := "jinja_render_failure"
    doc := "The recipe could not be rendered by Jinja2\n\nCheck if you are missing quotes or curly braces in Jinja2 template\nexpressions. (The parts with ``\x7b\x7b something \x7d\x7d`` or ``\x7b% set\nvar=\"value\" %\x7d``)." }

/-- `unknown_check` sentinel check. -/
def unknown_check : CheckDef :=
  { name := "unknown_check"
    doc := "Something went wrong inside the linter\n\nPlease request help from @bioconda/core" }

/-- The checks registered by `lint/__init__.py` itself, in definition order
(the module registry then grows with the concrete check library). -/
def builtinChecks : List CheckDef :=
  [linter_failure, duplicate_key_in_meta_yaml, missing_version_or_name,
   empty_meta_yaml, missing_build, unknown_selector, missing_meta_yaml,
   conda_render_failure, jinja_render_failure, unknown_check]

/-- The `RecipeError` subclasses keyed by `recipe_error_to_lint_check`, plus a
variant for any other `RecipeError` subclass (which the dict lookup defaults to
`linter_failure`).  Each carries the exception's `line` attribute. -/
inductive RecipeErr where
  | DuplicateKey (line : Option Int)
  | MissingKey (line : Option Int)
  | EmptyRecipe (line : Option Int)
  | MissingBuild (line : Option Int)
  | HasSelector (line : Option Int)
  | MissingMetaYaml (line : Option Int)
  | CondaRenderFailure (line : Option Int)
  | RenderFailure (line : Option Int)
  | OtherRecipeError (line : Option Int)
deriving DecidableEq, Repr

/-- `getattr(exc, 'line')`. -/
def RecipeErr.line : RecipeErr → Option Int
  | .DuplicateKey l => l
  | .MissingKey l => l
  | .EmptyRecipe l => l
  | .MissingBuild l => l
  | .HasSelector l => l
  | .MissingMetaYaml l => l
  | .CondaRenderFailure l => l
  | .RenderFailure l => l
  | .OtherRecipeError l => l

/-- `recipe_error_to_lint_check.get(exc.__class__, linter_failure)`. -/
def recipeErrCheck : RecipeErr → CheckDef
  | .DuplicateKey _ => duplicate_key_in_meta_yaml
  | .MissingKey _ => missing_version_or_name
  | .EmptyRecipe _ => empty_meta_yaml
  | .MissingBuild _ => missing_build
  | .HasSelector _ => unknown_selector
  | .MissingMetaYaml _ => missing_meta_yaml
  | .CondaRenderFailure _ => conda_render_failure
  | .RenderFailure _ => jinja_render_failure
  | .OtherRecipeError _ => linter_failure

/-! ### The dependency graph (`nx.DiGraph` as used by `Linter`) -/

/-- Directed graph over check names: `nodes` in insertion order, `edges` as the
`(check, required-check)` pairs (`dag.add_edges_from` also inserts missing
endpoint nodes, mirrored in `buildDag`). -/
structure Digraph where
  nodes : List String
  edges : List (String × String)

/-- Insert a node unless present (networkx node insertion). -/
def addNode (ns : List String) (x : String) : List String :=
  if x ∈ ns then ns else ns ++ [x]

/-- Build the check graph of `Linter.__init__`: one node per registered check
name, one edge `(str(check), str(check_dep))` per requirement. -/
def buildDag (registry : List CheckDef) : Digraph :=
  let es := (registry.map (fun c => c.requires.map (fun d => (c.name, d)))).flatten
  let ns0 := registry.foldl (fun ns c => addNode ns c.name) []
  let ns := es.foldl (fun ns e => addNode (addNode ns e.1) e.2) ns0
  { nodes := ns, edges := es }

/-- Remove the first occurrence of an element. -/
def removeFirst {α : Type} [DecidableEq α] : List α → α → List α
  | [], _ => []
  | c :: rest, x => if c = x then rest else c :: removeFirst rest x

/-- A node can be emitted next when none of its requirements is still pending. -/
def noPendingReq (edges : List (String × String)) (remaining : List String)
    (n : String) : Bool :=
  edges.all (fun e => !(e.1 = n && decide (e.2 ∈ remaining)))

/-- Kahn-style construction of the reversed topological order
(`nx.topological_sort(dag, reverse=True)`): repeatedly emit a node whose
requirements are all already emitted; fail when none exists (a cycle). -/
def topoLoop (edges : List (String × String)) : Nat → List String → Option (List String)
  | _, [] => some []
  | 0, _ :: _ => none
  | Nat.succ fuel, r :: rest =>
    match (r :: rest).find? (noPendingReq edges (r :: rest)) with
    | none => none
    | some n => Option.map (fun ord => n :: ord) (topoLoop edges fuel (removeFirst (r :: rest) n))

/-- The cached execution order computed at engine construction: every
required check precedes every check that requires it; `none` on a cycle. -/
def topoSortRev (g : Digraph) : Option (List String) :=
  topoLoop g.edges g.nodes.length g.nodes

/-! ### Reachability (`nx.descendants` / `nx.ancestors`) -/

/-- Edge targets of the current front. -/
def stepTargets (edges : List (String × String)) (s : Finset String) : List String :=
  edges.filterMap (fun e => if e.1 ∈ s then some e.2 else none)

/-- One closure step: add every direct successor of a member. -/
def stepF (edges : List (String × String)) (s : Finset String) : Finset String :=
  s ∪ (stepTargets edges s).toFinset

/-- Iterate a set transformer. -/
def iterF (f : Finset String → Finset String) : Nat → Finset String → Finset String
  | 0, s => s
  | Nat.succ n, s => f (iterF f n s)

/-- All nodes reachable from `x` (including `x`): the closure stabilises within
`edges.length + 1` steps. -/
def reachSet (edges : List (String × String)) (x : String) : Finset String :=
  iterF (stepF edges) (edges.length + 1) {x}

/-- `nx.descendants g x`: nodes reachable from `x`, excluding `x`. -/
def descendants (g : Digraph) (x : String) : Finset String :=
  (reachSet g.edges x).erase x

/-- Reverse every edge. -/
def swapEdges (es : List (String × String)) : List (String × String) :=
  es.map (fun e => (e.2, e.1))

/-- `nx.ancestors g x`: nodes with a path to `x`, excluding `x`. -/
def ancestors (g : Digraph) (x : String) : Finset String :=
  (reachSet (swapEdges g.edges) x).erase x

/-- The edge relation of an edge list. -/
def EdgeRel (es : List (String × String)) (a b : String) : Prop :=
  (a, b) ∈ es

/-! ### Skip directives (`Linter.load_skips`) -/

/-- Match `\s*` followed by a literal `]`; return the remainder. -/
def wsThenBracket (s : List Char) : Option (List Char) :=
  match s.dropWhile isPySpace with
  | ']' :: rest => some rest
  | _ => none

/-- Match a literal and return the remainder. -/
def litPrefix (lit s : List Char) : Option (List Char) :=
  if lit.isPrefixOf s then some (s.drop lit.length) else none

/-- The lazy group `(?P<recipe>.*?)\s*\]`: the shortest newline-free prefix
after which optional whitespace and `]` complete the token. -/
def findRecipeEnd : List Char → Option (List Char × List Char)
  | [] => none
  | c :: rest =>
    match wsThenBracket (c :: rest) with
    | some r2 => some ([], r2)
    | none =>
      if c = '\n' then none
      else Option.map (fun pr => (c :: pr.1, pr.2)) (findRecipeEnd rest)

/-- Match `\[\s*lint skip (?P<func>\w+) for (?P<recipe>.*?)\s*\]` at the head
of the input; return captured groups and the remainder. -/
def matchTokenAt (s : List Char) : Option (String × String × List Char) :=
  match s with
  | '[' :: rest =>
    let s1 := rest.dropWhile isPySpace
    match litPrefix ("lint skip ").data s1 with
    | none => none
    | some s2 =>
      let fw := (s2.takeWhile isWordChar, s2.dropWhile isWordChar)
      if fw.1 = [] then none
      else
        match litPrefix (" for ").data fw.2 with
        | none => none
        | some s3 =>
          match findRecipeEnd s3 with
          | none => none
          | some pr => some (String.mk fw.1, String.mk pr.1, pr.2)
  | _ => none

/-- `re.findall` scan: leftmost non-overlapping matches. -/
def findTokensAux : Nat → List Char → List (String × String)
  | 0, _ => []
  | _, [] => []
  | Nat.succ fuel, c :: rest =>
    match matchTokenAt (c :: rest) with
    | some ftr => (ftr.1, ftr.2.1) :: findTokensAux fuel ftr.2.2
    | none => findTokensAux fuel rest

/-- `Linter.load_skips` applied to the scanned text: the `(func, recipe)`
pairs of every directive token, in match order. -/
def findTokens (text : String) : List (String × String) :=
  findTokensAux text.data.length text.data

/-- `self.skip[recipe_name]`: the functions recorded for a recipe
(`defaultdict(list)` lookup; absent key gives `[]`). -/
def skipLookup (tokens : List (String × String)) (recipe_name : String) : List String :=
  (tokens.filter (fun t => t.2 = recipe_name)).map (fun t => t.1)

/-! ### The `Linter` -/

/-- The external recipe loader: `Recipe.from_file(folder, name)` (which may
raise a `RecipeError`) and the bare constructor `Recipe(name, folder)` used for
failure messages.  The recipe folder is fixed per linter and folded in. -/
structure RecipeWorld where
  fromFile : String → Except RecipeErr Recipe
  bare : String → Recipe

/-- The `Linter` state after construction. -/
structure Linter where
  exclude : List String
  skip : List (String × String)
  _messages : List LintMessage
  checks_dag : Digraph
  checks_ordered : List String
  registry : List CheckDef

/-- `Linter.__init__`: parse skips, build the check graph, compute and cache
the reversed topological order; construction raises on a cycle (the source's
handler itself raises — it even misspells `RuntimeError` as `RunTimeError`,
which raises a `NameError`, still aborting construction). -/
def Linter.init (registry : List CheckDef) (commit_message : String)
    (exclude : List String) : Except Unit Linter :=
  match topoSortRev (buildDag registry) with
  | none => Except.error ()
  | some order =>
    Except.ok
      { exclude := exclude
        skip := findTokens commit_message
        _messages := []
        checks_dag := buildDag registry
        checks_ordered := order
        registry := registry }

/-- `self.check_instances[name]`: the dict comprehension keeps the last
registered check of a given name. -/
def findCheck (registry : List CheckDef) (n : String) : Option CheckDef :=
  registry.foldl (fun acc c => if c.name = n then some c else acc) none

/-- `self.check_instances[check].run(recipe)` under the executor's
`try`: a missing instance (KeyError) or a raising hook both surface as the
caught exception; otherwise the hook's `self.message` calls are materialised
through `make_message`. -/
def runHooks (registry : List CheckDef) (cname : String) (recipe : Recipe) :
    Except Unit (List LintMessage) :=
  match findCheck registry cname with
  | none => Except.error ()
  | some cd =>
    match cd.behavior recipe with
    | Except.error _ => Except.error ()
    | Except.ok reqs =>
      Except.ok (reqs.map (fun q => makeMessage cd recipe q.sec q.fname q.line))

/--
The check loop of `Linter.lint_one` (lines 524-541).  Alongside the produced
value it reports the names of the invoked (non-skipped) checks.  When a
check's hooks raise, the source appends a synthetic ERROR message naming the
check, sets `res = True` and then calls `messages.extend(res)` — extending a
list by `True` raises `TypeError`, so the whole document run aborts and every
collected message is lost; this is the `Except.error` result.
-/
def runChecks (registry : List CheckDef) (dag : Digraph) (recipe : Recipe) :
    List String → Finset String → Except Unit (List LintMessage) × List String
  | [], _ => (Except.ok [], [])
  | c :: rest, skip =>
    if c ∈ skip then runChecks registry dag recipe rest skip
    else
      match runHooks registry c recipe with
      | Except.error _ => (Except.error (), [c])
      | Except.ok msgs =>
        (Except.map (fun ms => msgs ++ ms)
          (runChecks registry dag recipe rest
            (if msgs.isEmpty then skip else skip ∪ ancestors dag c)).1,
         c :: (runChecks registry dag recipe rest
            (if msgs.isEmpty then skip else skip ∪ ancestors dag c)).2)

/-- The initial skip set of `lint_one`: directive-derived names for this
recipe, the global exclude list, and the document's `extra/skip-lints` list
(only when that field's value is a list). -/
def Linter.initialSkips (self : Linter) (recipe : Recipe) (recipe_name : String) :
    Finset String :=
  (skipLookup self.skip recipe_name).toFinset ∪ self.exclude.toFinset ∪
    (match recipe.extraSkipLints with
     | some l => l.toFinset
     | none => ∅)

/-- Proactive propagation (`lint_one` lines 512-521): for every known name in
the set, also skip all of its descendants; unknown names are logged and kept. -/
def Linter.resolveSkips (self : Linter) (s : Finset String) : Finset String :=
  s ∪ s.biUnion (fun c =>
    if c ∈ self.checks_dag.nodes then descendants self.checks_dag c else ∅)

/-- `Linter.lint_one`: a `RecipeError` from loading maps to a single sentinel
message (skips are not consulted on this path); otherwise the resolved skip set
is computed and the check loop runs in the cached order. -/
def Linter.lintOne (self : Linter) (world : RecipeWorld) (recipe_name : String) :
    Except Unit (List LintMessage) × List String :=
  match world.fromFile recipe_name with
  | Except.error exc =>
    (Except.ok [makeMessage (recipeErrCheck exc) (world.bare recipe_name) none none exc.line], [])
  | Except.ok recipe =>
    runChecks self.registry self.checks_dag recipe self.checks_ordered
      (self.resolveSkips (self.initialSkips recipe recipe_name))

/-- The per-recipe body of `Linter.lint`: any exception escaping `lint_one`
is replaced by a single `linter_failure` message on a bare recipe. -/
def Linter.lintOneMsgs (self : Linter) (world : RecipeWorld) (recipe_name : String) :
    List LintMessage :=
  match (self.lintOne world recipe_name).1 with
  | Except.ok msgs => msgs
  | Except.error _ => [makeMessage linter_failure (world.bare recipe_name) none none none]

/-- Python `sorted` on strings: stable ascending lexicographic sort. -/
def pySorted (l : List String) : List String :=
  List.insertionSort (fun a b => a ≤ b) l

/-- `Linter.lint`: process the recipes in sorted order, extend the persistent
message list, and report whether any accumulated message has severity ERROR
or higher. -/
def Linter.lint (self : Linter) (world : RecipeWorld) (recipe_names : List String) :
    Bool × Linter :=
  let msgs2 := self._messages ++
    (pySorted recipe_names).foldl (fun acc n => acc ++ self.lintOneMsgs world n) []
  (msgs2.any (fun m => decide (Severity.ERROR.val ≤ m.severity.val)),
   { self with _messages := msgs2 })

/-- `Linter.get_messages`. -/
def Linter.get_messages (self : Linter) : List LintMessage :=
  self._messages

/-- `Linter.clear_messages`. -/
def Linter.clear_messages (self : Linter) : Linter :=
  { self with _messages := [] }

/-! ### Lemmas: `removeFirst`, `idxOf`, the topological order -/

/-- Position of the first occurrence (length when absent). -/
def idxOf : List String → String → Nat
  | [], _ => 0
  | c :: rest, x => if c = x then 0 else idxOf rest x + 1

theorem removeFirst_perm {α : Type} [DecidableEq α] {a : α} :
    ∀ {l : List α}, a ∈ l → l.Perm (a :: removeFirst l a) := by
  intro l
  induction l with
  | nil => intro h; cases h
  | cons c rest ih =>
    intro h
    by_cases hc : c = a
    · subst hc
      simp [removeFirst]
    · rw [removeFirst, if_neg hc]
      have ha : a ∈ rest := by
        cases List.mem_cons.mp h with
        | inl h1 => exact absurd h1.symm hc
        | inr h2 => exact h2
      exact ((ih ha).cons c).trans (List.Perm.swap a c _)

theorem mem_removeFirst_of_ne {α : Type} [DecidableEq α] {a x : α} :
    ∀ {l : List α}, x ∈ l → x ≠ a → x ∈ removeFirst l a := by
  intro l
  induction l with
  | nil => intro h _; cases h
  | cons c rest ih =>
    intro h hne
    by_cases hc : c = a
    · subst hc
      rw [removeFirst, if_pos rfl]
      cases List.mem_cons.mp h with
      | inl h1 => exact absurd h1 hne
      | inr h2 => exact h2
    · rw [removeFirst, if_neg hc]
      cases List.mem_cons.mp h with
      | inl h1 => exact h1 ▸ List.mem_cons_self x _
      | inr h2 => exact List.mem_cons_of_mem c (ih h2 hne)

theorem topoLoop_perm {es : List (String × String)} :
    ∀ (fuel : Nat) (rem ord : List String),
      topoLoop es fuel rem = some ord → rem.Perm ord := by
  intro fuel
  induction fuel with
  | zero =>
    intro rem ord h
    cases rem with
    | nil => simp [topoLoop] at h; simp [h.symm]
    | cons r rest => simp [topoLoop] at h
  | succ fuel ih =>
    intro rem ord h
    cases rem with
    | nil => simp [topoLoop] at h; simp [h.symm]
    | cons r rest =>
      unfold topoLoop at h
      split at h
      · cases h
      · rename_i n hf
        cases ho : topoLoop es fuel (removeFirst (r :: rest) n) with
        | none => rw [ho] at h; cases h
        | some ord2 =>
          rw [ho] at h
          have hord : ord = n :: ord2 := by
            simpa using h.symm
          subst hord
          have hn : n ∈ r :: rest := List.mem_of_find?_eq_some hf
          exact (removeFirst_perm hn).trans (List.Perm.cons n (ih _ _ ho))

theorem noPendingReq_spec {es : List (String × String)} {rem : List String} {n a b : String}
    (h : noPendingReq es rem n = true) (he : (a, b) ∈ es) (ha : a = n) : b ∉ rem := by
  subst ha
  intro hb
  have h2 := (List.all_eq_true.mp h) _ he
  simp [hb] at h2

theorem topoLoop_prec {es : List (String × String)} :
    ∀ (fuel : Nat) (rem ord : List String),
      topoLoop es fuel rem = some ord →
      ∀ a b, (a, b) ∈ es → a ∈ ord → b ∈ rem →
        b ∈ ord ∧ idxOf ord b < idxOf ord a := by
  intro fuel
  induction fuel with
  | zero =>
    intro rem ord h a b he ha hb
    cases rem with
    | nil => cases hb
    | cons r rest => simp [topoLoop] at h
  | succ fuel ih =>
    intro rem ord h a b he ha hb
    cases rem with
    | nil => cases hb
    | cons r rest =>
      unfold topoLoop at h
      split at h
      · cases h
      · rename_i n hf
        cases ho : topoLoop es fuel (removeFirst (r :: rest) n) with
        | none => rw [ho] at h; cases h
        | some ord2 =>
          rw [ho] at h
          have hord : ord = n :: ord2 := by
            simpa using h.symm
          subst hord
          have hpend := List.find?_some hf
          by_cases han : a = n
          · exact absurd hb (noPendingReq_spec hpend he han)
          · have ha2 : a ∈ ord2 := by
              cases List.mem_cons.mp ha with
              | inl h1 => exact absurd h1 han
              | inr h2 => exact h2
            by_cases hbn : b = n
            · subst hbn
              refine ⟨List.mem_cons_self b _, ?_⟩
              rw [idxOf, if_pos rfl, idxOf, if_neg (fun hh => han hh.symm)]
              exact Nat.succ_pos _
            · have hb2 : b ∈ removeFirst (r :: rest) n :=
                mem_removeFirst_of_ne hb hbn
              obtain ⟨hbo, hlt⟩ := ih _ _ ho a b he ha2 hb2
              refine ⟨List.mem_cons_of_mem n hbo, ?_⟩
              rw [idxOf, if_neg (fun hh => hbn hh.symm),
                  idxOf, if_neg (fun hh => han hh.symm)]
              exact Nat.succ_lt_succ hlt

theorem topoSortRev_perm {g : Digraph} {ord : List String}
    (h : topoSortRev g = some ord) : g.nodes.Perm ord :=
  topoLoop_perm _ _ _ h

theorem topoSortRev_prec {g : Digraph} {ord : List String} {a b : String}
    (h : topoSortRev g = some ord) (he : (a, b) ∈ g.edges)
    (ha : a ∈ g.nodes) (hb : b ∈ g.nodes) :
    b ∈ ord ∧ idxOf ord b < idxOf ord a :=
  topoLoop_prec _ _ _ h a b he ((topoSortRev_perm h).mem_iff.mp ha) hb

/-! ### Lemmas: `buildDag` -/

theorem mem_addNode {ns : List String} {x y : String} :
    y ∈ addNode ns x ↔ y ∈ ns ∨ y = x := by
  unfold addNode
  by_cases h : x ∈ ns
  · rw [if_pos h]
    constructor
    · exact Or.inl
    · intro hy
      cases hy with
      | inl h1 => exact h1
      | inr h2 => exact h2 ▸ h
  · rw [if_neg h]
    simp

theorem addNode_nodup {ns : List String} {x : String} (h : ns.Nodup) :
    (addNode ns x).Nodup := by
  unfold addNode
  by_cases hx : x ∈ ns
  · rwa [if_pos hx]
  · rw [if_neg hx]
    simpa using List.Nodup.append h (List.nodup_singleton x) (by simpa using hx)

theorem foldlNodes_acc_sub :
    ∀ (es : List (String × String)) (acc : List String) (x : String), x ∈ acc →
      x ∈ es.foldl (fun ns e => addNode (addNode ns e.1) e.2) acc := by
  intro es
  induction es with
  | nil => intro acc x hx; exact hx
  | cons e rest ih =>
    intro acc x hx
    exact ih _ x (mem_addNode.mpr (Or.inl (mem_addNode.mpr (Or.inl hx))))

theorem foldlNodes_mem_edge :
    ∀ (es : List (String × String)) (acc : List String) (e : String × String), e ∈ es →
      e.1 ∈ es.foldl (fun ns e => addNode (addNode ns e.1) e.2) acc ∧
      e.2 ∈ es.foldl (fun ns e => addNode (addNode ns e.1) e.2) acc := by
  intro es
  induction es with
  | nil => intro acc e he; cases he
  | cons f rest ih =>
    intro acc e he
    cases List.mem_cons.mp he with
    | inl h1 =>
      subst h1
      constructor
      · exact foldlNodes_acc_sub rest _ _ (mem_addNode.mpr (Or.inl (mem_addNode.mpr (Or.inr rfl))))
      · exact foldlNodes_acc_sub rest _ _ (mem_addNode.mpr (Or.inr rfl))
    | inr h2 => exact ih _ e h2

theorem foldlNodes_nodup :
    ∀ (es : List (String × String)) (acc : List String), acc.Nodup →
      (es.foldl (fun ns e => addNode (addNode ns e.1) e.2) acc).Nodup := by
  intro es
  induction es with
  | nil => intro acc h; exact h
  | cons e rest ih =>
    intro acc h
    exact ih _ (addNode_nodup (addNode_nodup h))

theorem foldlNames_acc_sub :
    ∀ (reg : List CheckDef) (acc : List String) (x : String), x ∈ acc →
      x ∈ reg.foldl (fun ns c => addNode ns c.name) acc := by
  intro reg
  induction reg with
  | nil => intro acc x hx; exact hx
  | cons d rest ih =>
    intro acc x hx
    exact ih _ x (mem_addNode.mpr (Or.inl hx))

theorem foldlNames_mem :
    ∀ (reg : List CheckDef) (acc : List String) (c : CheckDef), c ∈ reg →
      c.name ∈ reg.foldl (fun ns c => addNode ns c.name) acc := by
  intro reg
  induction reg with
  | nil => intro acc c hc; cases hc
  | cons d rest ih =>
    intro acc c hc
    cases List.mem_cons.mp hc with
    | inl h1 =>
      subst h1
      exact foldlNames_acc_sub rest _ _ (mem_addNode.mpr (Or.inr rfl))
    | inr h2 => exact ih _ c h2

theorem foldlNames_nodup :
    ∀ (reg : List CheckDef) (acc : List String), acc.Nodup →
      (reg.foldl (fun ns c => addNode ns c.name) acc).Nodup := by
  intro reg
  induction reg with
  | nil => intro acc h; exact h
  | cons d rest ih => intro acc h; exact ih _ (addNode_nodup h)

theorem buildDag_nodes_nodup (reg : List CheckDef) : (buildDag reg).nodes.Nodup :=
  foldlNodes_nodup _ _ (foldlNames_nodup reg [] List.nodup_nil)

theorem buildDag_edge_fst {reg : List CheckDef} {e : String × String}
    (h : e ∈ (buildDag reg).edges) : e.1 ∈ (buildDag reg).nodes :=
  (foldlNodes_mem_edge _ _ e h).1

theorem buildDag_edge_snd {reg : List CheckDef} {e : String × String}
    (h : e ∈ (buildDag reg).edges) : e.2 ∈ (buildDag reg).nodes :=
  (foldlNodes_mem_edge _ _ e h).2

theorem buildDag_name_mem {reg : List CheckDef} {c : CheckDef} (h : c ∈ reg) :
    c.name ∈ (buildDag reg).nodes :=
  foldlNodes_acc_sub _ _ _ (foldlNames_mem reg [] c h)

theorem buildDag_requires_edge {reg : List CheckDef} {c : CheckDef} {b : String}
    (hc : c ∈ reg) (hb : b ∈ c.requires) : (c.name, b) ∈ (buildDag reg).edges := by
  show (c.name, b) ∈ (reg.map (fun c => c.requires.map (fun d => (c.name, d)))).flatten
  rw [List.mem_flatten]
  exact ⟨c.requires.map (fun d => (c.name, d)),
    List.mem_map.mpr ⟨c, hc, rfl⟩,
    List.mem_map.mpr ⟨b, hb, rfl⟩⟩

/-! ### Lemmas: reachability -/

theorem subset_stepF {es : List (String × String)} {s : Finset String} :
    s ⊆ stepF es s :=
  Finset.subset_union_left

theorem iterF_succ (f : Finset String → Finset String) (n : Nat) (s : Finset String) :
    iterF f (n + 1) s = f (iterF f n s) :=
  rfl

/-- The universe every closure iterate stays inside. -/
def edgeUniv (es : List (String × String)) (x : String) : Finset String :=
  insert x (es.map (fun e => e.2)).toFinset

theorem stepF_subset_univ {es : List (String × String)} {s : Finset String} {x : String}
    (hs : s ⊆ edgeUniv es x) : stepF es s ⊆ edgeUniv es x := by
  intro y hy
  cases Finset.mem_union.mp hy with
  | inl h1 => exact hs h1
  | inr h2 =>
    rw [List.mem_toFinset] at h2
    obtain ⟨e, hees, hee⟩ := List.mem_filterMap.mp h2
    by_cases h1 : e.1 ∈ s
    · rw [if_pos h1] at hee
      have hy2 : e.2 = y := Option.some.inj hee
      exact Finset.mem_insert_of_mem (List.mem_toFinset.mpr
        (hy2 ▸ List.mem_map.mpr ⟨e, hees, rfl⟩))
    · rw [if_neg h1] at hee
      cases hee

theorem iterF_subset_univ {es : List (String × String)} {x : String} :
    ∀ n, iterF (stepF es) n {x} ⊆ edgeUniv es x := by
  intro n
  induction n with
  | zero =>
    intro y hy
    rw [iterF, Finset.mem_singleton] at hy
    subst hy
    exact Finset.mem_insert_self _ _
  | succ n ihn => exact stepF_subset_univ ihn

theorem edgeUniv_card_le {es : List (String × String)} {x : String} :
    (edgeUniv es x).card ≤ es.length + 1 := by
  refine Nat.le_trans (Finset.card_insert_le _ _) (Nat.succ_le_succ ?_)
  refine Nat.le_trans (List.toFinset_card_le _) ?_
  rw [List.length_map]

theorem iterF_grow {es : List (String × String)} {x : String} :
    ∀ k, (∀ j, j < k → stepF es (iterF (stepF es) j {x}) ≠ iterF (stepF es) j {x}) →
      k + 1 ≤ (iterF (stepF es) k {x}).card := by
  intro k
  induction k with
  | zero =>
    intro _
    simp [iterF]
  | succ k ihk =>
    intro h
    have h1 : k + 1 ≤ (iterF (stepF es) k {x}).card :=
      ihk (fun j hj => h j (Nat.lt_succ_of_lt hj))
    have hne : stepF es (iterF (stepF es) k {x}) ≠ iterF (stepF es) k {x} :=
      h k (Nat.lt_succ_self k)
    have hss : iterF (stepF es) k {x} ⊂ iterF (stepF es) (k + 1) {x} := by
      rw [iterF_succ]
      exact Finset.ssubset_iff_subset_ne.mpr ⟨subset_stepF, fun hh => hne hh.symm⟩
    exact Nat.le_trans (Nat.succ_le_succ h1) (Nat.succ_le_of_lt (Finset.card_lt_card hss))

theorem reach_fix {es : List (String × String)} {x : String} :
    stepF es (reachSet es x) = reachSet es x := by
  by_cases hex : ∃ j, j ≤ es.length ∧
      stepF es (iterF (stepF es) j {x}) = iterF (stepF es) j {x}
  · obtain ⟨j, hj, hfix⟩ := hex
    have hstab : ∀ d, iterF (stepF es) (j + d) {x} = iterF (stepF es) j {x} := by
      intro d
      induction d with
      | zero => rfl
      | succ d ihd =>
        have : j + (d + 1) = (j + d) + 1 := rfl
        rw [this, iterF_succ, ihd, hfix]
    have hre : reachSet es x = iterF (stepF es) j {x} := by
      have hd : j + (es.length + 1 - j) = es.length + 1 := by omega
      rw [reachSet, ← hd, hstab]
    rw [hre]
    exact hfix
  · exfalso
    push_neg at hex
    have hgrow := @iterF_grow es x (es.length + 1)
      (fun j hj => hex j (by omega))
    have hcard : (iterF (stepF es) (es.length + 1) {x}).card ≤ es.length + 1 :=
      Nat.le_trans (Finset.card_le_card (iterF_subset_univ _)) edgeUniv_card_le
    omega

theorem mem_reachSet_self {es : List (String × String)} {x : String} :
    x ∈ reachSet es x := by
  have h : ∀ n, x ∈ iterF (stepF es) n {x} := by
    intro n
    induction n with
    | zero => simp [iterF]
    | succ n ihn => exact subset_stepF ihn
  exact h _

theorem reachSet_closed {es : List (String × String)} {x a b : String}
    (ha : a ∈ reachSet es x) (he : (a, b) ∈ es) : b ∈ reachSet es x := by
  rw [← reach_fix]
  apply Finset.mem_union_right
  rw [List.mem_toFinset]
  apply List.mem_filterMap.mpr
  exact ⟨(a, b), he, by rw [if_pos ha]⟩

theorem reachSet_sound {es : List (String × String)} {x y : String}
    (h : y ∈ reachSet es x) : Relation.ReflTransGen (EdgeRel es) x y := by
  suffices hs : ∀ n, ∀ z, z ∈ iterF (stepF es) n {x} →
      Relation.ReflTransGen (EdgeRel es) x z from hs _ y h
  intro n
  induction n with
  | zero =>
    intro z hz
    rw [iterF, Finset.mem_singleton] at hz
    exact hz ▸ Relation.ReflTransGen.refl
  | succ n ihn =>
    intro z hz
    rw [iterF_succ] at hz
    cases Finset.mem_union.mp hz with
    | inl h1 => exact ihn z h1
    | inr h2 =>
      rw [List.mem_toFinset] at h2
      obtain ⟨e, hees, hee⟩ := List.mem_filterMap.mp h2
      by_cases h1 : e.1 ∈ iterF (stepF es) n {x}
      · rw [if_pos h1] at hee
        have hz2 : e.2 = z := Option.some.inj hee
        have hedge : EdgeRel es e.1 z := by
          show (e.1, z) ∈ es
          rw [← hz2]
          exact hees
        exact (ihn e.1 h1).tail hedge
      · rw [if_neg h1] at hee
        cases hee

theorem reachSet_complete {es : List (String × String)} {x y : String}
    (h : Relation.ReflTransGen (EdgeRel es) x y) : y ∈ reachSet es x := by
  induction h with
  | refl => exact mem_reachSet_self
  | tail _ h2 ih => exact reachSet_closed ih h2

theorem mem_descendants {g : Digraph} {x y : String} :
    y ∈ descendants g x ↔ y ≠ x ∧ Relation.ReflTransGen (EdgeRel g.edges) x y := by
  unfold descendants
  rw [Finset.mem_erase]
  exact and_congr_right fun _ => ⟨reachSet_sound, reachSet_complete⟩

theorem edgeRel_swap {es : List (String × String)} {a b : String} :
    EdgeRel (swapEdges es) a b ↔ EdgeRel es b a := by
  unfold EdgeRel swapEdges
  constructor
  · intro h
    obtain ⟨e, he, heq⟩ := List.mem_map.mp h
    have h1 : e.2 = a := congrArg Prod.fst heq
    have h2 : e.1 = b := congrArg Prod.snd heq
    have : (e.1, e.2) = (b, a) := by rw [h1, h2]
    rwa [← this]
  · intro h
    exact List.mem_map.mpr ⟨(b, a), h, rfl⟩

theorem rtg_swap {es : List (String × String)} {u v : String}
    (h : Relation.ReflTransGen (EdgeRel (swapEdges es)) u v) :
    Relation.ReflTransGen (EdgeRel es) v u := by
  induction h with
  | refl => exact Relation.ReflTransGen.refl
  | tail _ h2 ih => exact Relation.ReflTransGen.head (edgeRel_swap.mp h2) ih

theorem mem_ancestors_sound {g : Digraph} {b a : String} (h : a ∈ ancestors g b) :
    a ≠ b ∧ Relation.ReflTransGen (EdgeRel g.edges) a b := by
  unfold ancestors at h
  rw [Finset.mem_erase] at h
  exact ⟨h.1, rtg_swap (reachSet_sound h.2)⟩

theorem idx_le_of_rtg {ord : List String} {es : List (String × String)}
    (hprec : ∀ p q, (p, q) ∈ es → idxOf ord q < idxOf ord p) {a b : String}
    (h : Relation.ReflTransGen (EdgeRel es) a b) : idxOf ord b ≤ idxOf ord a := by
  induction h with
  | refl => exact Nat.le_refl _
  | tail _ h2 ih => exact Nat.le_trans (Nat.le_of_lt (hprec _ _ h2)) ih

theorem idx_lt_of_rtg_ne {ord : List String} {es : List (String × String)}
    (hprec : ∀ p q, (p, q) ∈ es → idxOf ord q < idxOf ord p) {a b : String}
    (h : Relation.ReflTransGen (EdgeRel es) a b) (hne : a ≠ b) :
    idxOf ord b < idxOf ord a := by
  cases h.cases_head with
  | inl heq => exact absurd heq hne
  | inr hex =>
    obtain ⟨c, hac, hcb⟩ := hex
    exact Nat.lt_of_le_of_lt (idx_le_of_rtg hprec hcb) (hprec _ _ hac)

/-! ### Lemmas: `findCheck`, `runHooks`, the executor loop -/

theorem findCheck_name_aux {n : String} :
    ∀ (reg : List CheckDef) (acc : Option CheckDef),
      (∀ c, acc = some c → c.name = n) →
      ∀ cd, reg.foldl (fun acc c => if c.name = n then some c else acc) acc = some cd →
        cd.name = n := by
  intro reg
  induction reg with
  | nil => intro acc hacc cd h; exact hacc cd h
  | cons d rest ih =>
    intro acc hacc cd h
    apply ih _ _ cd h
    intro c hc
    dsimp only at hc
    by_cases hd : d.name = n
    · rw [if_pos hd] at hc
      exact (Option.some.inj hc) ▸ hd
    · rw [if_neg hd] at hc
      exact hacc c hc

theorem findCheck_name {reg : List CheckDef} {n : String} {cd : CheckDef}
    (h : findCheck reg n = some cd) : cd.name = n :=
  findCheck_name_aux reg none (fun c hc => by cases hc) cd h

theorem runHooks_ok {reg : List CheckDef} {c : String} {recipe : Recipe}
    {msgs : List LintMessage} (h : runHooks reg c recipe = Except.ok msgs) :
    ∃ cd reqs, findCheck reg c = some cd ∧ cd.behavior recipe = Except.ok reqs ∧
      msgs = reqs.map (fun q => makeMessage cd recipe q.sec q.fname q.line) := by
  unfold runHooks at h
  cases hf : findCheck reg c with
  | none =>
    simp only [hf] at h
    exact Except.noConfusion h
  | some cd =>
    simp only [hf] at h
    cases hb : cd.behavior recipe with
    | error e =>
      simp only [hb] at h
      exact Except.noConfusion h
    | ok reqs =>
      simp only [hb] at h
      exact ⟨cd, reqs, rfl, hb, (Except.ok.inj h).symm⟩

theorem sentinel_severity {reg : List CheckDef} {cls : CheckDef}
    (hb : (findCheck reg cls.name).map (fun d => d.severity) = some cls.severity)
    {recipe : Recipe} {sec fname : Option String} {line : Option Int} {m : LintMessage}
    (hm : m = makeMessage cls recipe sec fname line) :
    (findCheck reg m.check).map (fun d => d.severity) = some m.severity := by
  subst hm
  have h1 : (makeMessage cls recipe sec fname line).check = cls.name := rfl
  have h2 : (makeMessage cls recipe sec fname line).severity = cls.severity := rfl
  rw [h1, h2]
  exact hb

theorem runChecks_invoked_subset {reg : List CheckDef} {dag : Digraph} {recipe : Recipe} :
    ∀ (order : List String) (skip : Finset String) (x : String),
      x ∈ (runChecks reg dag recipe order skip).2 → x ∈ order := by
  intro order
  induction order with
  | nil => intro skip x hx; simp [runChecks] at hx
  | cons c rest ih =>
    intro skip x hx
    simp only [runChecks] at hx
    by_cases hc : c ∈ skip
    · rw [if_pos hc] at hx
      exact List.mem_cons_of_mem c (ih _ x hx)
    · rw [if_neg hc] at hx
      cases hrh : runHooks reg c recipe with
      | error e =>
        simp only [hrh] at hx
        simp at hx
        exact hx ▸ List.mem_cons_self x _
      | ok msgs =>
        simp only [hrh] at hx
        cases List.mem_cons.mp hx with
        | inl h1 => exact h1 ▸ List.mem_cons_self x _
        | inr h2 => exact List.mem_cons_of_mem c (ih _ x h2)

theorem runChecks_skip_not_invoked {reg : List CheckDef} {dag : Digraph} {recipe : Recipe} :
    ∀ (order : List String) (skip : Finset String) (a : String),
      a ∈ skip → a ∉ (runChecks reg dag recipe order skip).2 := by
  intro order
  induction order with
  | nil => intro skip a _ hx; simp [runChecks] at hx
  | cons c rest ih =>
    intro skip a ha
    simp only [runChecks]
    by_cases hc : c ∈ skip
    · rw [if_pos hc]
      exact ih _ a ha
    · rw [if_neg hc]
      cases hrh : runHooks reg c recipe with
      | error e =>
        simp only [hrh]
        simp
        intro heq
        exact hc (heq ▸ ha)
      | ok msgs =>
        simp only [hrh]
        rw [List.mem_cons]
        push_neg
        constructor
        · intro heq
          exact hc (heq ▸ ha)
        · apply ih
          by_cases hm : msgs.isEmpty
          · rw [if_pos hm]; exact ha
          · rw [if_neg hm]; exact Finset.mem_union_left _ ha

theorem runChecks_insert_unknown {reg : List CheckDef} {dag : Digraph} {recipe : Recipe}
    {u : String} :
    ∀ (order : List String) (skip : Finset String), (∀ c ∈ order, c ≠ u) →
      runChecks reg dag recipe order (insert u skip) =
        runChecks reg dag recipe order skip := by
  intro order
  induction order with
  | nil => intro skip _; rfl
  | cons c rest ih =>
    intro skip hord
    have hcu : c ≠ u := hord c (List.mem_cons_self c rest)
    have hrest : ∀ x ∈ rest, x ≠ u := fun x hx => hord x (List.mem_cons_of_mem c hx)
    simp only [runChecks]
    by_cases hc : c ∈ skip
    · rw [if_pos hc, if_pos (Finset.mem_insert_of_mem hc)]
      exact ih _ hrest
    · have hc2 : c ∉ insert u skip := by
        rw [Finset.mem_insert]
        rintro (h1 | h2)
        · exact hcu h1
        · exact hc h2
      rw [if_neg hc, if_neg hc2]
      cases hrh : runHooks reg c recipe with
      | error e => simp only [hrh]
      | ok msgs =>
        simp only [hrh]
        have hrw : (if msgs.isEmpty then insert u skip else insert u skip ∪ ancestors dag c)
            = insert u (if msgs.isEmpty then skip else skip ∪ ancestors dag c) := by
          by_cases hm : msgs.isEmpty
          · rw [if_pos hm, if_pos hm]
          · rw [if_neg hm, if_neg hm, Finset.insert_union]
        rw [hrw, ih _ hrest]

theorem runChecks_dep_aux {reg : List CheckDef} {dag : Digraph} {recipe : Recipe}
    {b : String} {bmsgs : List LintMessage}
    (hres : runHooks reg b recipe = Except.ok bmsgs) (hne : bmsgs ≠ [])
    {a : String} (hanc : a ∈ ancestors dag b) :
    ∀ (order : List String) (skip : Finset String),
      order.Nodup →
      idxOf order b < idxOf order a →
      b ∈ (runChecks reg dag recipe order skip).2 →
      a ∉ (runChecks reg dag recipe order skip).2 := by
  have hab : a ≠ b := (mem_ancestors_sound hanc).1
  intro order
  induction order with
  | nil => intro skip _ _ hbinv; simp [runChecks] at hbinv
  | cons c rest ih =>
    intro skip hnd hidx hbinv
    have hca : c ≠ a := by
      intro h
      rw [idxOf, idxOf, if_pos h] at hidx
      exact Nat.not_lt_zero _ hidx
    simp only [runChecks] at hbinv ⊢
    by_cases hc : c ∈ skip
    · rw [if_pos hc] at hbinv ⊢
      have hbrest : b ∈ rest := runChecks_invoked_subset rest skip b hbinv
      have hcb : c ≠ b := by
        intro h
        exact (List.nodup_cons.mp hnd).1 (h ▸ hbrest)
      rw [idxOf, if_neg hcb, idxOf, if_neg hca] at hidx
      exact ih skip (List.nodup_cons.mp hnd).2 (Nat.lt_of_succ_lt_succ hidx) hbinv
    · rw [if_neg hc] at hbinv ⊢
      cases hrh : runHooks reg c recipe with
      | error e =>
        simp only [hrh] at hbinv
        simp at hbinv
        subst hbinv
        rw [hres] at hrh
        cases hrh
      | ok msgs =>
        simp only [hrh] at hbinv ⊢
        cases List.mem_cons.mp hbinv with
        | inl hbc =>
          subst hbc
          rw [hres] at hrh
          have hmb : msgs = bmsgs := Except.ok.inj hrh.symm
          have hm : ¬ msgs.isEmpty := by
            rw [hmb, List.isEmpty_iff]
            exact hne
          rw [List.mem_cons]
          rintro (h1 | h2)
          · exact hca h1.symm
          · have ha2 : a ∈ (if msgs.isEmpty then skip else skip ∪ ancestors dag b) := by
              rw [if_neg hm]
              exact Finset.mem_union_right _ hanc
            exact runChecks_skip_not_invoked rest _ a ha2 h2
        | inr hbrest2 =>
          have hbrest : b ∈ rest := runChecks_invoked_subset rest _ b hbrest2
          have hcb : c ≠ b := by
            intro h
            exact (List.nodup_cons.mp hnd).1 (h ▸ hbrest)
          rw [idxOf, if_neg hcb, idxOf, if_neg hca] at hidx
          rw [List.mem_cons]
          rintro (h1 | h2)
          · exact hca h1.symm
          · exact ih _ (List.nodup_cons.mp hnd).2 (Nat.lt_of_succ_lt_succ hidx) hbrest2 h2

theorem runChecks_msgs_severity {reg : List CheckDef} {dag : Digraph} {recipe : Recipe} :
    ∀ (order : List String) (skip : Finset String) (ms : List LintMessage),
      (runChecks reg dag recipe order skip).1 = Except.ok ms →
      ∀ m ∈ ms, (findCheck reg m.check).map (fun d => d.severity) = some m.severity := by
  intro order
  induction order with
  | nil =>
    intro skip ms h m hm
    simp [runChecks] at h
    subst h
    cases hm
  | cons c rest ih =>
    intro skip ms h m hm
    simp only [runChecks] at h
    by_cases hc : c ∈ skip
    · rw [if_pos hc] at h
      exact ih _ ms h m hm
    · rw [if_neg hc] at h
      cases hrh : runHooks reg c recipe with
      | error e =>
        simp only [hrh] at h
        exact Except.noConfusion h
      | ok msgs =>
        simp only [hrh] at h
        cases hrest : (runChecks reg dag recipe rest
            (if msgs.isEmpty then skip else skip ∪ ancestors dag c)).1 with
        | error e => rw [hrest] at h; cases h
        | ok ms2 =>
          rw [hrest] at h
          have hms : ms = msgs ++ ms2 := (Except.ok.inj h).symm
          subst hms
          cases List.mem_append.mp hm with
          | inr h2 => exact ih _ ms2 hrest m h2
          | inl h1 =>
            obtain ⟨cd, reqs, hf, _, hmsgs⟩ := runHooks_ok hrh
            subst hmsgs
            obtain ⟨q, _, hq⟩ := List.mem_map.mp h1
            have hcheck : m.check = cd.name := by rw [← hq]; rfl
            have hsev : m.severity = cd.severity := by rw [← hq]; rfl
            rw [hcheck, hsev, findCheck_name hf, hf]
            rfl

/-! ### Lemmas: `Linter.init` and `Linter.lint` -/

theorem init_ok {reg : List CheckDef} {cm : String} {ex : List String} {L : Linter}
    (h : Linter.init reg cm ex = Except.ok L) :
    topoSortRev (buildDag reg) = some L.checks_ordered ∧
    L.checks_dag = buildDag reg ∧ L.registry = reg ∧ L.exclude = ex ∧
    L.skip = findTokens cm ∧ L._messages = [] := by
  unfold Linter.init at h
  cases ht : topoSortRev (buildDag reg) with
  | none =>
    simp only [ht] at h
    exact Except.noConfusion h
  | some ord =>
    simp only [ht] at h
    have := Except.ok.inj h
    subst this
    exact ⟨rfl, rfl, rfl, rfl, rfl, rfl⟩

theorem foldl_append_flatMap {α β : Type} (f : α → List β) :
    ∀ (l : List α) (acc : List β),
      l.foldl (fun a n => a ++ f n) acc = acc ++ l.flatMap f := by
  intro l
  induction l with
  | nil => intro acc; simp
  | cons x xs ih => intro acc; simp [ih, List.append_assoc]

theorem lint_messages_eq (L : Linter) (world : RecipeWorld) (ns : List String) :
    ((L.lint world ns).2)._messages =
      L._messages ++ (pySorted ns).flatMap (L.lintOneMsgs world) := by
  show L._messages ++ (pySorted ns).foldl (fun acc n => acc ++ L.lintOneMsgs world n) [] =
    L._messages ++ (pySorted ns).flatMap (L.lintOneMsgs world)
  rw [foldl_append_flatMap, List.nil_append]

theorem pySorted_perm_eq {l1 l2 : List String} (h : l1.Perm l2) :
    pySorted l1 = pySorted l2 := by
  exact @List.eq_of_perm_of_sorted String (fun a b => a ≤ b) inferInstance _ _
    ((List.perm_insertionSort _ l1).trans (h.trans (List.perm_insertionSort _ l2).symm))
    (List.sorted_insertionSort _ l1)
    (List.sorted_insertionSort _ l2)

/-! ### Lemmas: skip resolution -/

theorem resolveSkips_closed (L : Linter) (s : Finset String) :
    ∀ n ∈ L.resolveSkips s, n ∈ L.checks_dag.nodes →
      descendants L.checks_dag n ⊆ L.resolveSkips s := by
  intro n hn hnode y hy
  unfold Linter.resolveSkips at hn ⊢
  cases Finset.mem_union.mp hn with
  | inl h1 =>
    apply Finset.mem_union_right
    apply Finset.mem_biUnion.mpr
    exact ⟨n, h1, by rw [if_pos hnode]; exact hy⟩
  | inr h2 =>
    obtain ⟨c, hcs, hcy⟩ := Finset.mem_biUnion.mp h2
    by_cases hcn : c ∈ L.checks_dag.nodes
    · rw [if_pos hcn] at hcy
      obtain ⟨_, hrtg1⟩ := mem_descendants.mp hcy
      obtain ⟨hyn, hrtg2⟩ := mem_descendants.mp hy
      by_cases hyc : y = c
      · subst hyc
        exact Finset.mem_union_left _ hcs
      · apply Finset.mem_union_right
        apply Finset.mem_biUnion.mpr
        refine ⟨c, hcs, ?_⟩
        rw [if_pos hcn]
        exact mem_descendants.mpr ⟨hyc, hrtg1.trans hrtg2⟩
    · rw [if_neg hcn] at hcy
      exact absurd hcy (Finset.not_mem_empty n)

theorem resolveSkips_insert_unknown (L : Linter) {u : String}
    (hu : u ∉ L.checks_dag.nodes) (s : Finset String) :
    L.resolveSkips (insert u s) = insert u (L.resolveSkips s) := by
  unfold Linter.resolveSkips
  rw [Finset.biUnion_insert, if_neg hu, Finset.empty_union, Finset.insert_union]

theorem filter_removeFirst_of_not {α : Type} [DecidableEq α] {p : α → Bool} {a : α}
    (ha : p a = false) : ∀ l : List α, (removeFirst l a).filter p = l.filter p := by
  intro l
  induction l with
  | nil => rfl
  | cons x xs ih =>
    unfold removeFirst
    by_cases hx : x = a
    · rw [if_pos hx]
      subst hx
      simp [List.filter_cons, ha]
    · rw [if_neg hx]
      rw [List.filter_cons, List.filter_cons]
      cases hpx : p x <;> simp [hpx, ih]

theorem skipLookup_removeFirst {tokens : List (String × String)} {f r n : String}
    (hn : ¬ r = n) :
    skipLookup (removeFirst tokens (f, r)) n = skipLookup tokens n := by
  unfold skipLookup
  rw [filter_removeFirst_of_not (by simp [hn]) tokens]

/-! ### Concrete scenario material for the claim theorems -/

/-- Extract the linter from a successful construction (dummy on failure). -/
def forceLinter (e : Except Unit Linter) : Linter :=
  match e with
  | Except.ok l => l
  | Except.error _ =>
    { exclude := [], skip := [], _messages := [],
      checks_dag := { nodes := [], edges := [] }, checks_ordered := [], registry := [] }

/-- A check whose hooks always emit one message. -/
def emitter : CheckDef :=
  { name := "emitter", doc := "Emitter check\n\nAlways fails",
    behavior := fun _ => Except.ok [{}] }

/-- A check whose hooks always raise an exception. -/
def raiser : CheckDef :=
  { name := "raiser", doc := "Raiser check\n\nHooks raise",
    behavior := fun _ => Except.error () }

/-- A check that always emits one message (the failing prerequisite). -/
def checkB : CheckDef :=
  { name := "check_b", doc := "B check\n\nAlways fails",
    behavior := fun _ => Except.ok [{}] }

/-- A check requiring `check_b`. -/
def checkA : CheckDef :=
  { name := "check_a", doc := "A check\n\nRequires B", requires := ["check_b"],
    behavior := fun _ => Except.ok [{}] }

/-- Half of a cyclic requirement pair. -/
def cycA : CheckDef :=
  { name := "cyc_a", doc := "Cyclic A\n\nBody", requires := ["cyc_b"] }

/-- Other half of a cyclic requirement pair. -/
def cycB : CheckDef :=
  { name := "cyc_b", doc := "Cyclic B\n\nBody", requires := ["cyc_a"] }

/-- A plain recipe document that loads fine. -/
def recOK : Recipe := { path := "r/meta.yaml", extraSkipLints := some [], ranges := [] }

/-- A world where every recipe loads as `recOK`. -/
def wOK : RecipeWorld :=
  { fromFile := fun _ => Except.ok recOK
    bare := fun n => { path := n ++ "/meta.yaml", extraSkipLints := some [], ranges := [] } }

/-- A world where loading raises `DuplicateKey` at line 3. -/
def wDup : RecipeWorld :=
  { fromFile := fun _ => Except.error (RecipeErr.DuplicateKey (some 3))
    bare := fun n => { path := n ++ "/meta.yaml", extraSkipLints := some [], ranges := [] } }

def reg1 : List CheckDef := builtinChecks ++ [emitter, raiser]

def linter1 : Linter := forceLinter (Linter.init reg1 "" [])

def regE : List CheckDef := builtinChecks ++ [emitter]

def linterE : Linter := forceLinter (Linter.init regE "" [])

def regAB : List CheckDef := builtinChecks ++ [checkA, checkB]

def linterAB : Linter := forceLinter (Linter.init regAB "" [])

def regB : List CheckDef := builtinChecks ++ [checkB]

def linterB : Linter := forceLinter (Linter.init regB "" [])

def regCyc : List CheckDef := builtinChecks ++ [cycA, cycB]

def linterDup : Linter :=
  forceLinter (Linter.init builtinChecks "[lint skip duplicate_key_in_meta_yaml for r]" [])

/-! ### The claims -/

/--
C1: the spec states that an exception raised by a check's hooks is caught,
converted into a single synthetic ERROR message naming the failing check, and
that execution continues with the remaining checks.  The code catches the
exception and appends the synthetic message, but then sets `res = True` and
executes `messages.extend(res)` — extending a list by `True` raises
`TypeError`, aborting `lint_one`; `lint` then replaces the whole document's
messages by one `linter_failure` message.  This theorem evaluates the model at
such an input: with an `emitter` check followed by a `raiser` check, the
document run errors out and the final output is a single message issued by
`linter_failure` — the emitter's message and all other checks' results are
lost, contradicting the spec.
-/
theorem C1_hook_exception_aborts_run :
    (Linter.init reg1 "" []).isOk = true ∧
    (linter1.lintOne wOK "rec").1 = Except.error () ∧
    ((linter1.lint wOK ["rec"]).2.get_messages).map (fun m => m.check) =
      ["linter_failure"] := by
  refine ⟨?_, ?_, ?_⟩ <;> decide

/--
C2: every message produced by a linting run carries the declared severity of
the check identified (by name) as its issuing check.  Messages built by
`make_message` copy `cls.severity`; the sentinel messages for recipe-load
errors and the `linter_failure` fallback are issued by checks declared with
severity ERROR; the one message that could violate the invariant — the
synthetic in-loop exception message — never reaches the output because the
executor crashes right after creating it (see C1).
-/
theorem C2_message_severity_matches_declared
    {reg : List CheckDef} {cm : String} {ex : List String} {L : Linter}
    (hinit : Linter.init reg cm ex = Except.ok L)
    (hbuiltin : ∀ c ∈ builtinChecks,
      (findCheck reg c.name).map (fun d => d.severity) = some c.severity)
    (world : RecipeWorld) (name : String) :
    ∀ m ∈ L.lintOneMsgs world name,
      (findCheck reg m.check).map (fun d => d.severity) = some m.severity := by
  obtain ⟨hord, hdag, hreg, _, _, _⟩ := init_ok hinit
  intro m hm
  unfold Linter.lintOneMsgs at hm
  cases hone : (L.lintOne world name).1 with
  | error e =>
    simp only [hone] at hm
    have hm2 := List.mem_singleton.mp hm
    subst hm2
    exact sentinel_severity (hbuiltin linter_failure (List.mem_cons_self _ _)) rfl
  | ok msgs =>
    simp only [hone] at hm
    unfold Linter.lintOne at hone
    cases hload : world.fromFile name with
    | error exc =>
      simp only [hload] at hone
      have hmsgs : msgs =
          [makeMessage (recipeErrCheck exc) (world.bare name) none none exc.line] :=
        (Except.ok.inj hone).symm
      subst hmsgs
      have hm2 := List.mem_singleton.mp hm
      subst hm2
      have hmem : recipeErrCheck exc ∈ builtinChecks := by
        cases exc <;> simp [recipeErrCheck, builtinChecks]
      exact sentinel_severity (hbuiltin _ hmem) rfl
    | ok recipe =>
      simp only [hload] at hone
      have h := runChecks_msgs_severity L.checks_ordered _ msgs hone m hm
      rwa [hreg] at h

def regC2msg : LintMessage := makeMessage emitter recOK none none none

theorem C2_witness :
    regC2msg ∈ linterE.lintOneMsgs wOK "rec" ∧
    (findCheck regE regC2msg.check).map (fun d => d.severity) = some regC2msg.severity := by
  refine ⟨by decide, ?_⟩
  exact C2_message_severity_matches_declared
    (show Linter.init regE "" [] = Except.ok linterE from rfl)
    (by decide) wOK "rec" regC2msg (by decide)

/--
C3: at construction a total order over all checks is computed in which every
required check strictly precedes every check that requires it, and that order
is cached in `checks_ordered` and left untouched by every `lint` call (the
check loop of `lint_one` reads exactly this cached field).
-/
theorem C3_topological_order_cached
    {reg : List CheckDef} {cm : String} {ex : List String} {L : Linter}
    (hinit : Linter.init reg cm ex = Except.ok L) :
    (∀ A ∈ reg, ∀ b ∈ A.requires,
      idxOf L.checks_ordered b < idxOf L.checks_ordered A.name) ∧
    (∀ world ns, ((L.lint world ns).2).checks_ordered = L.checks_ordered) := by
  obtain ⟨hord, hdag, hreg, _, _, _⟩ := init_ok hinit
  constructor
  · intro A hA b hb
    have hedge := buildDag_requires_edge hA hb
    exact (topoSortRev_prec hord hedge (buildDag_edge_fst hedge)
      (buildDag_edge_snd hedge)).2
  · intro world ns
    rfl

theorem C3_witness :
    idxOf linterAB.checks_ordered "check_b" < idxOf linterAB.checks_ordered "check_a" ∧
    ((linterAB.lint wOK ["rec"]).2).checks_ordered = linterAB.checks_ordered := by
  have h := C3_topological_order_cached
    (show Linter.init regAB "" [] = Except.ok linterAB from rfl)
  exact ⟨h.1 checkA (List.mem_append_right _ (List.mem_cons_self _ _)) "check_b"
    (List.mem_cons_self _ _), h.2 wOK ["rec"]⟩

/--
C4: during a document run, when a non-skipped check `b` runs and yields a
non-empty message list, every check that transitively requires `b` (an
ancestor in the graph) is never invoked for that document; and the reactive
skip is confined to the run — `lint` leaves the linter's persistent skip
data, exclude list and graph unchanged.
-/
theorem C4_failed_prereq_disables_dependents
    {reg : List CheckDef} {cm : String} {ex : List String} {L : Linter}
    {world : RecipeWorld} {recipe_name : String} {recipe : Recipe}
    {b : String} {bmsgs : List LintMessage}
    (hinit : Linter.init reg cm ex = Except.ok L)
    (hload : world.fromFile recipe_name = Except.ok recipe)
    (hres : runHooks reg b recipe = Except.ok bmsgs)
    (hne : bmsgs ≠ [])
    (hbinv : b ∈ (L.lintOne world recipe_name).2) :
    (∀ a ∈ ancestors L.checks_dag b, a ∉ (L.lintOne world recipe_name).2) ∧
    (∀ ns, ((L.lint world ns).2).skip = L.skip ∧
      ((L.lint world ns).2).exclude = L.exclude ∧
      ((L.lint world ns).2).checks_dag = L.checks_dag) := by
  obtain ⟨hord, hdag, hreg, _, _, _⟩ := init_ok hinit
  constructor
  · intro a hanc
    have hl : L.lintOne world recipe_name =
        runChecks L.registry L.checks_dag recipe L.checks_ordered
          (L.resolveSkips (L.initialSkips recipe recipe_name)) := by
      unfold Linter.lintOne
      rw [hload]
    rw [hl] at hbinv ⊢
    have hnodup : L.checks_ordered.Nodup :=
      ((topoSortRev_perm hord).nodup_iff).mp (buildDag_nodes_nodup reg)
    have hprec : ∀ p q, (p, q) ∈ (buildDag reg).edges →
        idxOf L.checks_ordered q < idxOf L.checks_ordered p := by
      intro p q hpq
      exact (topoSortRev_prec hord hpq (buildDag_edge_fst hpq)
        (buildDag_edge_snd hpq)).2
    have hanc2 : a ∈ ancestors (buildDag reg) b := by rwa [hdag] at hanc
    obtain ⟨hab, hrtg⟩ := mem_ancestors_sound hanc2
    have hidx : idxOf L.checks_ordered b < idxOf L.checks_ordered a :=
      idx_lt_of_rtg_ne hprec hrtg hab
    have hres2 : runHooks L.registry b recipe = Except.ok bmsgs := by
      rw [hreg]; exact hres
    exact runChecks_dep_aux hres2 hne hanc L.checks_ordered _ hnodup hidx hbinv
  · intro ns
    exact ⟨rfl, rfl, rfl⟩

def bmsgsW : List LintMessage := [makeMessage checkB recOK none none none]

theorem C4_witness :
    "check_a" ∉ (linterAB.lintOne wOK "rec").2 ∧
    ((linterAB.lintOne wOK "rec").1.map (List.map (fun m => m.check))) =
      Except.ok ["check_b"] ∧
    ((linterB.lintOne wOK "rec").1.map (List.map (fun m => m.check))) =
      Except.ok ["check_b"] := by
  refine ⟨?_, by decide, by decide⟩
  have h := C4_failed_prereq_disables_dependents
    (show Linter.init regAB "" [] = Except.ok linterAB from rfl)
    (show wOK.fromFile "rec" = Except.ok recOK from rfl)
    (show runHooks regAB "check_b" recOK = Except.ok bmsgsW from rfl)
    (List.cons_ne_nil _ _)
    (by decide)
  exact h.1 "check_a" (by decide)

/--
C5: before the check loop runs, the resolved skip set is closed under
proactive propagation — for every known check name in it, all transitively
required (descendant) names are also in it — and an unknown name in the
initial set does not affect the run: adding it to the initial set leaves the
check loop's result unchanged.
-/
theorem C5_skip_closure_and_unknown_ignored
    {reg : List CheckDef} {cm : String} {ex : List String} {L : Linter}
    (hinit : Linter.init reg cm ex = Except.ok L)
    (recipe : Recipe) (recipe_name : String) :
    (∀ n ∈ L.resolveSkips (L.initialSkips recipe recipe_name),
      n ∈ L.checks_dag.nodes →
      descendants L.checks_dag n ⊆ L.resolveSkips (L.initialSkips recipe recipe_name)) ∧
    (∀ u, u ∉ L.checks_dag.nodes → ∀ s : Finset String,
      runChecks L.registry L.checks_dag recipe L.checks_ordered
          (L.resolveSkips (insert u s)) =
        runChecks L.registry L.checks_dag recipe L.checks_ordered
          (L.resolveSkips s)) := by
  obtain ⟨hord, hdag, hreg, _, _, _⟩ := init_ok hinit
  constructor
  · exact resolveSkips_closed L _
  · intro u hu s
    rw [resolveSkips_insert_unknown L hu s]
    apply runChecks_insert_unknown
    intro c hc he
    subst he
    apply hu
    rw [hdag]
    exact ((topoSortRev_perm hord).mem_iff).mpr hc

def linterABx : Linter := forceLinter (Linter.init regAB "" ["check_a"])

theorem C5_witness :
    "check_b" ∈ linterABx.resolveSkips (linterABx.initialSkips recOK "rec") ∧
    runChecks linterABx.registry linterABx.checks_dag recOK linterABx.checks_ordered
        (linterABx.resolveSkips (insert "no_such_check"
          (linterABx.initialSkips recOK "rec"))) =
      runChecks linterABx.registry linterABx.checks_dag recOK linterABx.checks_ordered
        (linterABx.resolveSkips (linterABx.initialSkips recOK "rec")) := by
  have h := C5_skip_closure_and_unknown_ignored
    (show Linter.init regAB "" ["check_a"] = Except.ok linterABx from rfl)
    recOK "rec"
  exact ⟨h.1 "check_a" (by decide) (by decide) (by decide),
    h.2 "no_such_check" (by decide) (linterABx.initialSkips recOK "rec")⟩

/--
C6: a cycle in the prerequisite relation (an edge `x` to `y` together with a
path back from `y` to `x`) makes `Linter.__init__` raise: `topological_sort`
fails and the handler re-raises (the construction never yields a linter), so
cycle detection is an engine-construction failure and never reaches any
per-document code path.
-/
theorem C6_cycle_aborts_construction
    {reg : List CheckDef} (cm : String) (ex : List String) {x y : String}
    (hedge : EdgeRel (buildDag reg).edges x y)
    (hpath : Relation.ReflTransGen (EdgeRel (buildDag reg).edges) y x) :
    Linter.init reg cm ex = Except.error () := by
  unfold Linter.init
  cases ht : topoSortRev (buildDag reg) with
  | none => rfl
  | some ord =>
    exfalso
    have hprec : ∀ p q, (p, q) ∈ (buildDag reg).edges → idxOf ord q < idxOf ord p :=
      fun p q hpq => (topoSortRev_prec ht hpq (buildDag_edge_fst hpq)
        (buildDag_edge_snd hpq)).2
    have h1 : idxOf ord y < idxOf ord x := hprec x y hedge
    have h2 : idxOf ord x ≤ idxOf ord y := idx_le_of_rtg hprec hpath
    omega

theorem C6_witness : Linter.init regCyc "" [] = Except.error () :=
  C6_cycle_aborts_construction "" []
    (show EdgeRel (buildDag regCyc).edges "cyc_a" "cyc_b" from
      (by decide : ("cyc_a", "cyc_b") ∈ (buildDag regCyc).edges))
    (Relation.ReflTransGen.single
      (show EdgeRel (buildDag regCyc).edges "cyc_b" "cyc_a" from
        (by decide : ("cyc_b", "cyc_a") ∈ (buildDag regCyc).edges)))

/--
C7 counterexample: the claim says the verdict of a lint call is true only if
that call produced a message of severity ERROR or higher.  After a first run
that recorded an ERROR message, a second `lint` call over the empty recipe
list produces no messages at all (the accumulated message list is unchanged),
yet its verdict is true, because the code evaluates the verdict over the
persistent `self._messages` list.
-/
theorem C7_counterexample :
    ((linterE.lint wOK ["rec"]).2.lint wOK []).1 = true ∧
    (((linterE.lint wOK ["rec"]).2.lint wOK []).2).get_messages =
      ((linterE.lint wOK ["rec"]).2).get_messages := by
  refine ⟨?_, ?_⟩ <;> decide

/--
C7 amended: the verdict of a lint call is true iff some message in the
linter's accumulated message list after the call — which includes messages
from earlier runs since the last `clear_messages` — has severity ERROR or
higher.  (On a fresh linter this coincides with the claim as stated.)
-/
theorem C7_verdict_iff_accumulated_error (L : Linter) (world : RecipeWorld)
    (ns : List String) :
    (L.lint world ns).1 = true ↔
      ∃ m ∈ ((L.lint world ns).2).get_messages,
        Severity.ERROR.val ≤ m.severity.val := by
  constructor
  · intro h
    obtain ⟨m, hm, hp⟩ := List.any_eq_true.mp h
    exact ⟨m, hm, of_decide_eq_true hp⟩
  · rintro ⟨m, hm, hp⟩
    exact List.any_eq_true.mpr ⟨m, hm, decide_eq_true hp⟩

/--
C8 counterexample: the claim says a directive token suppresses all messages
of the named check for the named recipe.  With the directive
`[lint skip duplicate_key_in_meta_yaml for r]` in the scanned text and a
document `r` that fails to load with a duplicate-key error, the run still
emits a message issued by `duplicate_key_in_meta_yaml`: the sentinel path for
recipe-load failures returns before the skip set is ever consulted.
-/
theorem C8_counterexample :
    ("duplicate_key_in_meta_yaml", "r") ∈
      findTokens "[lint skip duplicate_key_in_meta_yaml for r]" ∧
    (linterDup.lintOneMsgs wDup "r").map (fun m => m.check) =
      ["duplicate_key_in_meta_yaml"] := by
  refine ⟨?_, ?_⟩ <;> decide

/--
C8 amended: a directive token `(f, r)` found in the scanned text suppresses
check `f` in the executor loop when linting recipe `r` — `f` is never invoked
there, hence emits no hook messages (messages of the sentinel load-failure
path and the `linter_failure` fallback are outside the loop and unaffected by
directives) — and removing the directive changes nothing for any other recipe
name.
-/
theorem C8_directive_suppresses_in_executor
    {reg : List CheckDef} {cm : String} {ex : List String} {L : Linter}
    (hinit : Linter.init reg cm ex = Except.ok L)
    {f r : String} (htok : (f, r) ∈ findTokens cm) (world : RecipeWorld) :
    f ∉ (L.lintOne world r).2 ∧
    (∀ n, ¬ n = r →
      Linter.lintOne { L with skip := removeFirst L.skip (f, r) } world n =
        L.lintOne world n) := by
  obtain ⟨hord, hdag, hreg, hex, hskip, hmsg⟩ := init_ok hinit
  constructor
  · unfold Linter.lintOne
    cases hload : world.fromFile r with
    | error exc => exact List.not_mem_nil f
    | ok recipe =>
      apply runChecks_skip_not_invoked
      apply Finset.mem_union_left
      show f ∈ L.initialSkips recipe r
      unfold Linter.initialSkips
      apply Finset.mem_union_left
      apply Finset.mem_union_left
      rw [List.mem_toFinset]
      unfold skipLookup
      apply List.mem_map.mpr
      refine ⟨(f, r), ?_, rfl⟩
      rw [List.mem_filter]
      constructor
      · rw [hskip]
        exact htok
      · simp
  · intro n hn
    unfold Linter.lintOne
    cases hload : world.fromFile n with
    | error exc => rfl
    | ok recipe =>
      show runChecks L.registry L.checks_dag recipe L.checks_ordered
          (L.resolveSkips
            (Linter.initialSkips { L with skip := removeFirst L.skip (f, r) } recipe n)) =
        runChecks L.registry L.checks_dag recipe L.checks_ordered
          (L.resolveSkips (L.initialSkips recipe n))
      have h1 : Linter.initialSkips { L with skip := removeFirst L.skip (f, r) } recipe n =
          L.initialSkips recipe n := by
        show (skipLookup (removeFirst L.skip (f, r)) n).toFinset ∪ L.exclude.toFinset ∪
            (match recipe.extraSkipLints with
             | some l => l.toFinset
             | none => ∅) =
          (skipLookup L.skip n).toFinset ∪ L.exclude.toFinset ∪
            (match recipe.extraSkipLints with
             | some l => l.toFinset
             | none => ∅)
        rw [skipLookup_removeFirst (fun h => hn h.symm)]
      rw [h1]

def linter8 : Linter := forceLinter (Linter.init regE "[lint skip emitter for rec]" [])

theorem C8_witness :
    "emitter" ∉ (linter8.lintOne wOK "rec").2 ∧
    Linter.lintOne { linter8 with skip := removeFirst linter8.skip ("emitter", "rec") }
        wOK "other" =
      linter8.lintOne wOK "other" := by
  have h := C8_directive_suppresses_in_executor
    (show Linter.init regE "[lint skip emitter for rec]" [] = Except.ok linter8 from rfl)
    (by decide : ("emitter", "rec") ∈ findTokens "[lint skip emitter for rec]") wOK
  exact ⟨h.1, h.2 "other" (by decide)⟩

/--
C9: `lint` iterates over `sorted(recipe_names)`, so the recipes are processed
in ascending lexicographic order: the call's result is invariant under
permutation of the input list, the appended messages are the concatenation of
the per-recipe messages in sorted-name order, and the processing order is
sorted.
-/
theorem C9_recipes_processed_sorted (L : Linter) (world : RecipeWorld)
    (ns1 ns2 : List String) (hperm : ns1.Perm ns2) :
    L.lint world ns1 = L.lint world ns2 ∧
    ((L.lint world ns1).2).get_messages =
      L.get_messages ++ (pySorted ns1).flatMap (L.lintOneMsgs world) ∧
    List.Sorted (fun a b => a ≤ b) (pySorted ns1) := by
  refine ⟨?_, lint_messages_eq L world ns1, List.sorted_insertionSort _ ns1⟩
  unfold Linter.lint
  rw [pySorted_perm_eq hperm]

theorem C9_witness :
    linterE.lint wOK ["b", "a"] = linterE.lint wOK ["a", "b"] ∧
    ((linterE.lint wOK ["b", "a"]).2).get_messages =
      linterE.get_messages ++ (pySorted ["b", "a"]).flatMap (linterE.lintOneMsgs wOK) ∧
    List.Sorted (fun a b => a ≤ b) (pySorted ["b", "a"]) :=
  C9_recipes_processed_sorted linterE wOK ["b", "a"] ["a", "b"]
    (List.Perm.swap "a" "b" [])

/--
C10: `lint` only appends the run's messages to the persistent `_messages`
list and never clears it; `get_messages` returns the full accumulated list,
the verdict is the disjunction of an ERROR message among the earlier messages
and among the newly produced ones, and only `clear_messages` resets the list.
-/
theorem C10_messages_accumulate (L : Linter) (world : RecipeWorld) (ns : List String) :
    ((L.lint world ns).2).get_messages =
      L.get_messages ++ (pySorted ns).flatMap (L.lintOneMsgs world) ∧
    (L.lint world ns).1 =
      (L.get_messages.any (fun m => decide (Severity.ERROR.val ≤ m.severity.val)) ||
       ((pySorted ns).flatMap (L.lintOneMsgs world)).any
         (fun m => decide (Severity.ERROR.val ≤ m.severity.val))) ∧
    L.clear_messages.get_messages = [] := by
  refine ⟨lint_messages_eq L world ns, ?_, rfl⟩
  have h : (L.lint world ns).1 =
      (L._messages ++ (pySorted ns).flatMap (L.lintOneMsgs world)).any
        (fun m => decide (Severity.ERROR.val ≤ m.severity.val)) := by
    show (L._messages ++
        (pySorted ns).foldl (fun acc n => acc ++ L.lintOneMsgs world n) []).any
        (fun m => decide (Severity.ERROR.val ≤ m.severity.val)) = _
    rw [foldl_append_flatMap, List.nil_append]
  rw [h, List.any_append]
  rfl

end BiocondaLint
